import Mathlib

/-!
BIP39 entropy generation (`bip39/entropy.go`).

A shallow embedding of `NewEntropy`, `NewFastEntropy` and `FastEntropy.Next`.

* Bytes are `Fin 256`; a `[]byte` is a `List Byte`.
* `uint256.Int` is a `Nat` kept below `2 ^ 256` by the operations
  (`SetBytes`, `Add`), `uint64` is a `Nat` reduced modulo `2 ^ 64` by `count++`.
* `crypto/rand.Read` is an oracle: the outcome of the `k`-th read is fixed by a
  `RandSource`, and the number of reads performed so far is threaded through
  every operation, so that draws can be counted.
* Go's `(value, error)` results are `Except Error value`.
* The mutex is not modelled: one call to `Next` is one atomic step.
-/

namespace Bip39

/-- One octet. -/
abbrev Byte := Fin 256

/-- The two ways the operations fail. -/
inductive Error where
  /-- The error of `validateEntropyBitSize`. -/
  | invalidSize
  /-- The error handed back by `rand.Read`. -/
  | randomSource
  deriving DecidableEq, Repr

/-- Modelled from the spec: `validateEntropyBitSize` is declared in another file of the
package; section 4.1 gives its contract: it succeeds iff `bitSize % 32 == 0` and
`128 <= bitSize <= 256`. `none` is Go's `nil` error. -/
def validateEntropyBitSize (bitSize : Int) : Option Error :=
  if bitSize % 32 = 0 ∧ 128 ≤ bitSize ∧ bitSize ≤ 256 then none else some Error.invalidSize

/-- Modelled from the spec: the package constant `shift11BitsMask` is declared in another
file; the spec gives the default threshold 2048 (the source comments `2^11 | 2048`). -/
def shift11BitsMask : Nat := 2048

/-- The secure source: `src k` is the outcome of the `k`-th call of `rand.Read`
(counting from 0). `none`: the read fails. `some g`: the read succeeds and writes
`g i` at index `i` of the buffer it is given. -/
abbrev RandSource := Nat → Option (Nat → Byte)

/-- The call `rand.Read` on a buffer of `n` bytes, as read number `draws`. Gives the filled
buffer (or `none` on failure) and the new number of reads. -/
def randRead (src : RandSource) (draws : Nat) (n : Nat) : Option (List Byte) × Nat :=
  match src draws with
  | none => (none, draws + 1)
  | some g => (some ((List.range n).map g), draws + 1)

/-- Function `NewEntropy`: validate, then fill a fresh buffer of `bitSize/8` bytes. -/
def NewEntropy (src : RandSource) (draws : Nat) (bitSize : Int) :
    Except Error (List Byte) × Nat :=
  match validateEntropyBitSize bitSize with
  | some err => (Except.error err, draws)
  | none =>
    match randRead src draws (Int.toNat (Int.tdiv bitSize 8)) with
    | (none, d) => (Except.error Error.randomSource, d)
    | (some entropy, d) => (Except.ok entropy, d)

/-- The unsigned integer a byte sequence denotes, big-endian. -/
def beValue (buf : List Byte) : Nat :=
  buf.foldl (fun acc b => acc * 256 + b.val) 0

/-- Method `uint256.Int.SetBytes`: the big-endian value of the buffer; of a buffer longer
than 32 bytes only the last 32 are used. -/
def setBytes (buf : List Byte) : Nat :=
  beValue (buf.drop (buf.length - 32))

/-- Big-endian digits of `v` without leading zero, at most `fuel` of them. -/
def bytesAux : Nat → Nat → List Byte
  | 0, _ => []
  | fuel + 1, v => if v = 0 then [] else bytesAux fuel (v / 256) ++ [Fin.ofNat (v % 256)]

/-- Method `uint256.Int.Bytes`: the minimal big-endian byte representation (empty for 0,
at most 32 bytes). -/
def bytes (v : Nat) : List Byte := bytesAux 32 v

/-- The struct `FastEntropy` without its mutex. -/
structure FastEntropy where
  /-- Requested size, fixed at construction. -/
  bitSize : Int
  /-- A `uint64`: values issued since the last reseed. -/
  count : Nat
  /-- A `uint64`: the threshold. -/
  maxCumulative : Nat
  /-- A `uint256.Int`: the next value. -/
  entropyInt : Nat
  deriving DecidableEq, Repr

/-- The threshold `NewFastEntropy` picks: `shift11BitsMask.Uint64()`, replaced by
`maxCumulative[0]` when `len(maxCumulative) > 0`. -/
def pickMax (maxCumulative : List Nat) : Nat :=
  match maxCumulative with
  | [] => shift11BitsMask
  | m :: _ => m

/-- Function `NewFastEntropy`; the variadic `maxCumulative` is a list of which only the head
is read. -/
def NewFastEntropy (src : RandSource) (draws : Nat) (bitSize : Int)
    (maxCumulative : List Nat) : Except Error FastEntropy × Nat :=
  match NewEntropy src draws bitSize with
  | (Except.error err, d) => (Except.error err, d)
  | (Except.ok entropy, d) =>
    let max := pickMax maxCumulative
    (Except.ok { bitSize := bitSize, count := 0, maxCumulative := max,
                 entropyInt := setBytes entropy }, d)

/-- The deferred function of `Next`: `f.count++` on a `uint64` and
`f.entropyInt.Add(f.entropyInt, one)` on a `uint256.Int`. It runs on every exit. -/
def deferred (f : FastEntropy) : FastEntropy :=
  { f with count := (f.count + 1) % 2 ^ 64, entropyInt := (f.entropyInt + 1) % 2 ^ 256 }

/-- The condition of the `if` in `Next`. -/
def mustReseed (f : FastEntropy) : Bool :=
  (validateEntropyBitSize (((bytes f.entropyInt).length : Int) * 8)).isSome
    || decide (f.count ≥ f.maxCumulative)

/-- Method `FastEntropy.Next`: the result, the generator afterwards, and the number of
reads of the source afterwards. -/
def Next (src : RandSource) (draws : Nat) (f : FastEntropy) :
    Except Error (List Byte) × FastEntropy × Nat :=
  let entropy := bytes f.entropyInt
  if mustReseed f then
    match NewEntropy src draws f.bitSize with
    | (Except.error err, d) => (Except.error err, deferred f, d)
    | (Except.ok newEntropy, d) =>
      (Except.ok newEntropy,
        deferred { f with count := 0, entropyInt := setBytes newEntropy }, d)
  else
    (Except.ok entropy, deferred f, draws)

/-- What one call of `Next` in a sequence of calls did. -/
structure Call where
  /-- What the call returned. -/
  result : Except Error (List Byte)
  /-- How many reads of the source the call made. -/
  drew : Nat

/-- The first `n` calls of `Next` from generator `f`, in order. -/
def runNext (src : RandSource) : Nat → Nat → FastEntropy → List Call
  | 0, _, _ => []
  | n + 1, draws, f =>
    match Next src draws f with
    | (r, f', d) => { result := r, drew := d - draws } :: runNext src n d f'

/-- Whether a call read the source (reseeded). -/
def Call.reseeded (c : Call) : Bool := decide (0 < c.drew)

/-- Whether the minimal byte representation of `v` passes `validateEntropyBitSize`, the
first half of the test in `Next`. -/
def shapeValid (v : Nat) : Bool :=
  (validateEntropyBitSize (((bytes v).length : Int) * 8)).isNone

/-- The bound the stored value keeps between calls, for a generator whose size is `n`
bytes: the size is one of the valid ones and the value is at most `256 ^ n` and a
`uint256`. -/
def valueBounded (f : FastEntropy) (n : Nat) : Prop :=
  validateEntropyBitSize f.bitSize = none ∧ f.bitSize = 8 * (n : Int) ∧
    Int.toNat (Int.tdiv f.bitSize 8) = n ∧ 16 ≤ n ∧ n ≤ 32 ∧ n % 4 = 0 ∧
    f.entropyInt ≤ 256 ^ n ∧ f.entropyInt < 2 ^ 256

/-- Lengths of the runs of a sequence of calls, given by the flags "this call drew
from the source": a run starts at a draw, `cur` values have been issued in the
current run so far. -/
def runLengths (cur : Nat) : List Bool → List Nat
  | [] => [cur]
  | true :: rest => cur :: runLengths 1 rest
  | false :: rest => runLengths (cur + 1) rest

/-- The generator and the number of reads of the source after the first `k` calls of
`Next`, whatever they returned. -/
def stateAfter (src : RandSource) : Nat → Nat → FastEntropy → FastEntropy × Nat
  | 0, draws, f => (f, draws)
  | k + 1, draws, f =>
    match Next src draws f with
    | (_, f', d) => stateAfter src k d f'

/-- The big-endian value of the bytes a call returned (0 for a failed call). -/
def Call.value (c : Call) : Nat :=
  match c.result with
  | Except.ok b => beValue b
  | Except.error _ => 0

/-- A source whose every read succeeds and fills the buffer with `g`. -/
def constSource (g : Nat → Byte) : RandSource := fun _ => some g

/-- A source whose every read fails. -/
def failingSource : RandSource := fun _ => none

/-- First byte `0x80`, all others zero. -/
def highBit : Nat → Byte := fun i => if i = 0 then 128 else 0

/-- Four leading zero bytes, then ones. -/
def lowSeed : Nat → Byte := fun i => if i < 4 then 0 else 1

/-! ## Facts about the building blocks -/

theorem validate_eq_none_iff (b : Int) :
    validateEntropyBitSize b = none ↔ (b % 32 = 0 ∧ 128 ≤ b ∧ b ≤ 256) := by
  unfold validateEntropyBitSize
  split <;> simp_all

theorem validate_of_invalid (b : Int) (h : ¬ (b % 32 = 0 ∧ 128 ≤ b ∧ b ≤ 256)) :
    validateEntropyBitSize b = some Error.invalidSize := by
  unfold validateEntropyBitSize
  rw [if_neg h]

/-- A valid size is `8 * n` for a byte count `n` among 16, 20, 24, 28, 32. -/
theorem valid_size_bytes (b : Int) (h : validateEntropyBitSize b = none) :
    ∃ n : Nat, b = 8 * (n : Int) ∧ Int.toNat (Int.tdiv b 8) = n ∧ 16 ≤ n ∧ n ≤ 32 ∧ n % 4 = 0 := by
  rw [validate_eq_none_iff] at h
  have h5 : b = 128 ∨ b = 160 ∨ b = 192 ∨ b = 224 ∨ b = 256 := by omega
  rcases h5 with h5 | h5 | h5 | h5 | h5
  · exact ⟨16, by subst h5; decide⟩
  · exact ⟨20, by subst h5; decide⟩
  · exact ⟨24, by subst h5; decide⟩
  · exact ⟨28, by subst h5; decide⟩
  · exact ⟨32, by subst h5; decide⟩

theorem NewEntropy_invalid (src : RandSource) (d : Nat) (b : Int)
    (h : ¬ (b % 32 = 0 ∧ 128 ≤ b ∧ b ≤ 256)) :
    NewEntropy src d b = (Except.error Error.invalidSize, d) := by
  unfold NewEntropy
  rw [validate_of_invalid b h]

theorem NewEntropy_ok (src : RandSource) (d : Nat) (b : Int) (g : Nat → Byte)
    (hv : validateEntropyBitSize b = none) (hs : src d = some g) :
    NewEntropy src d b
      = (Except.ok ((List.range (Int.toNat (Int.tdiv b 8))).map g), d + 1) := by
  unfold NewEntropy randRead
  rw [hv, hs]

theorem NewEntropy_fail (src : RandSource) (d : Nat) (b : Int)
    (hv : validateEntropyBitSize b = none) (hs : src d = none) :
    NewEntropy src d b = (Except.error Error.randomSource, d + 1) := by
  unfold NewEntropy randRead
  rw [hv, hs]

theorem beValue_append_one (l : List Byte) (b : Byte) :
    beValue (l ++ [b]) = beValue l * 256 + b.val := by
  unfold beValue
  rw [List.foldl_append]
  rfl

theorem beValue_lt (l : List Byte) : beValue l < 256 ^ l.length := by
  induction l using List.reverseRecOn with
  | nil => simp [beValue]
  | append_singleton l b ih =>
    rw [beValue_append_one, List.length_append, List.length_singleton, pow_succ]
    have hb : b.val < 256 := b.isLt
    nlinarith

theorem setBytes_of_short (l : List Byte) (h : l.length ≤ 32) : setBytes l = beValue l := by
  unfold setBytes
  rw [Nat.sub_eq_zero_of_le h, List.drop_zero]

theorem beValue_bytesAux (fuel v : Nat) (h : v < 256 ^ fuel) :
    beValue (bytesAux fuel v) = v := by
  induction fuel generalizing v with
  | zero =>
    have : v = 0 := by simpa using h
    subst this
    rfl
  | succ fuel ih =>
    unfold bytesAux
    split
    · next h0 => subst h0; rfl
    · rw [beValue_append_one, ih (v / 256) (by rw [pow_succ] at h; omega)]
      have : (Fin.ofNat (v % 256) : Byte).val = v % 256 := by
        show (v % 256) % 256 = v % 256
        omega
      rw [this]
      omega

theorem length_bytesAux_le (fuel v n : Nat) (h : v < 256 ^ n) :
    (bytesAux fuel v).length ≤ n := by
  induction fuel generalizing v n with
  | zero => simp [bytesAux]
  | succ fuel ih =>
    unfold bytesAux
    split
    · simp
    · next h0 =>
      cases n with
      | zero => simp at h; omega
      | succ n =>
        rw [List.length_append, List.length_singleton]
        have := ih (v / 256) n (by rw [pow_succ] at h; omega)
        omega

theorem length_bytesAux_le_fuel (fuel v : Nat) : (bytesAux fuel v).length ≤ fuel := by
  induction fuel generalizing v with
  | zero => simp [bytesAux]
  | succ fuel ih =>
    unfold bytesAux
    split
    · simp
    · rw [List.length_append, List.length_singleton]
      have := ih (v / 256)
      omega

theorem length_bytesAux_gt (fuel v n : Nat) (h : 256 ^ n ≤ v) (hn : n < fuel) :
    n < (bytesAux fuel v).length := by
  induction fuel generalizing v n with
  | zero => omega
  | succ fuel ih =>
    unfold bytesAux
    have hpos : 0 < 256 ^ n := by positivity
    rw [if_neg (by omega), List.length_append, List.length_singleton]
    cases n with
    | zero => omega
    | succ n =>
      have := ih (v / 256) n (by rw [pow_succ] at h; omega) (by omega)
      omega

/-- The representation `bytes` gives never has more than 32 bytes. -/
theorem length_bytes_le (v : Nat) : (bytes v).length ≤ 32 :=
  length_bytesAux_le_fuel 32 v

theorem beValue_bytesAux_mod (fuel v : Nat) :
    beValue (bytesAux fuel v) = v % 256 ^ fuel := by
  induction fuel generalizing v with
  | zero => simp [bytesAux, beValue, Nat.mod_one]
  | succ fuel ih =>
    unfold bytesAux
    split
    · next h0 => subst h0; simp [beValue]
    · rw [beValue_append_one, ih (v / 256), pow_succ', Nat.mod_mul]
      have : (Fin.ofNat (v % 256) : Byte).val = v % 256 := by
        show (v % 256) % 256 = v % 256
        omega
      rw [this]
      ring

/-- Reading back the bytes of a `uint256.Int` gives its value. -/
theorem beValue_bytes (v : Nat) : beValue (bytes v) = v % 2 ^ 256 := by
  unfold bytes
  rw [beValue_bytesAux_mod]
  norm_num

theorem bytes_zero : bytes 0 = [] := rfl

theorem shape_iff (l : Nat) :
    validateEntropyBitSize ((l : Int) * 8) = none ↔ (l % 4 = 0 ∧ 16 ≤ l ∧ l ≤ 32) := by
  rw [validate_eq_none_iff]
  omega

theorem mustReseed_eq_false_iff (f : FastEntropy) :
    mustReseed f = false ↔
      (validateEntropyBitSize (((bytes f.entropyInt).length : Int) * 8) = none
        ∧ f.count < f.maxCumulative) := by
  unfold mustReseed
  cases validateEntropyBitSize (((bytes f.entropyInt).length : Int) * 8) <;> simp

theorem Next_keep (src : RandSource) (d : Nat) (f : FastEntropy) (h : mustReseed f = false) :
    Next src d f = (Except.ok (bytes f.entropyInt), deferred f, d) := by
  unfold Next
  simp [h]

theorem Next_reseed_ok (src : RandSource) (d : Nat) (f : FastEntropy) (g : Nat → Byte)
    (h : mustReseed f = true) (hv : validateEntropyBitSize f.bitSize = none)
    (hs : src d = some g) :
    Next src d f
      = (Except.ok ((List.range (Int.toNat (Int.tdiv f.bitSize 8))).map g),
          deferred { f with
            count := 0
            entropyInt := setBytes ((List.range (Int.toNat (Int.tdiv f.bitSize 8))).map g) },
          d + 1) := by
  unfold Next
  simp [h, NewEntropy_ok src d f.bitSize g hv hs]

theorem Next_reseed_fail (src : RandSource) (d : Nat) (f : FastEntropy)
    (h : mustReseed f = true) (hv : validateEntropyBitSize f.bitSize = none)
    (hs : src d = none) :
    Next src d f = (Except.error Error.randomSource, deferred f, d + 1) := by
  unfold Next
  simp [h, NewEntropy_fail src d f.bitSize hv hs]

theorem Next_reseed_invalid (src : RandSource) (d : Nat) (f : FastEntropy)
    (h : mustReseed f = true) (hv : validateEntropyBitSize f.bitSize ≠ none) :
    Next src d f = (Except.error Error.invalidSize, deferred f, d) := by
  unfold Next
  have hn : ¬ (f.bitSize % 32 = 0 ∧ 128 ≤ f.bitSize ∧ f.bitSize ≤ 256) := by
    intro hc
    exact hv ((validate_eq_none_iff _).2 hc)
  simp [h, NewEntropy_invalid src d f.bitSize hn]

/-- What a successful call of `Next` can have done: either it kept the current value, or
it read the source once and took the fresh bytes. -/
theorem Next_ok_cases (src : RandSource) (d : Nat) (f : FastEntropy) (b : List Byte)
    (f1 : FastEntropy) (d1 : Nat) (h : Next src d f = (Except.ok b, f1, d1)) :
    (mustReseed f = false ∧ b = bytes f.entropyInt ∧ f1 = deferred f ∧ d1 = d) ∨
    (mustReseed f = true ∧ validateEntropyBitSize f.bitSize = none ∧
      ∃ g, src d = some g ∧ b = (List.range (Int.toNat (Int.tdiv f.bitSize 8))).map g ∧
        f1 = deferred { f with count := 0, entropyInt := setBytes b } ∧ d1 = d + 1) := by
  cases hr : mustReseed f with
  | false =>
    rw [Next_keep src d f hr] at h
    simp only [Prod.mk.injEq, Except.ok.injEq] at h
    exact Or.inl ⟨rfl, h.1.symm, h.2.1.symm, h.2.2.symm⟩
  | true =>
    by_cases hv : validateEntropyBitSize f.bitSize = none
    · cases hs : src d with
      | none =>
        rw [Next_reseed_fail src d f hr hv hs] at h
        simp at h
      | some g =>
        rw [Next_reseed_ok src d f g hr hv hs] at h
        simp only [Prod.mk.injEq, Except.ok.injEq] at h
        refine Or.inr ⟨rfl, hv, g, rfl, h.1.symm, ?_, h.2.2.symm⟩
        rw [← h.1]
        exact h.2.1.symm
    · rw [Next_reseed_invalid src d f hr hv] at h
      simp at h

theorem shapeValid_iff (v : Nat) :
    shapeValid v = true ↔
      ((bytes v).length % 4 = 0 ∧ 16 ≤ (bytes v).length ∧ (bytes v).length ≤ 32) := by
  unfold shapeValid
  rw [Option.isNone_iff_eq_none, shape_iff]

theorem mustReseed_eq_false_iff_shape (f : FastEntropy) :
    mustReseed f = false ↔ (shapeValid f.entropyInt = true ∧ f.count < f.maxCumulative) := by
  rw [mustReseed_eq_false_iff]
  unfold shapeValid
  rw [Option.isNone_iff_eq_none]

theorem shapeValid_ne_zero (v : Nat) (h : shapeValid v = true) : v ≠ 0 := by
  intro h0
  subst h0
  revert h
  decide

theorem two_pow_eq : (2 : Nat) ^ 256 = 256 ^ 32 := by norm_num

/-- After a successful call the stored value is the returned value plus one, modulo `2^256`. -/
theorem Next_ok_value (src : RandSource) (d : Nat) (f : FastEntropy) (b : List Byte)
    (f1 : FastEntropy) (d1 : Nat) (h : Next src d f = (Except.ok b, f1, d1)) :
    beValue b < 2 ^ 256 ∧ f1.entropyInt = (beValue b + 1) % 2 ^ 256 := by
  rcases Next_ok_cases src d f b f1 d1 h with ⟨-, hb, hf1, -⟩ | ⟨-, hv, g, -, hb, hf1, -⟩
  · subst hb hf1
    rw [beValue_bytes]
    refine ⟨Nat.mod_lt _ (by positivity), ?_⟩
    show (f.entropyInt + 1) % 2 ^ 256 = _
    exact (Nat.mod_add_mod _ _ _).symm
  · obtain ⟨n, -, hdiv, -, hn32, -⟩ := valid_size_bytes f.bitSize hv
    have hlen : b.length = n := by
      rw [hb, List.length_map, List.length_range, hdiv]
    have hset : setBytes b = beValue b := setBytes_of_short b (by omega)
    have hlt : beValue b < 256 ^ n := hlen ▸ beValue_lt b
    have hpow : 256 ^ n ≤ 256 ^ 32 := Nat.pow_le_pow_right (by norm_num) hn32
    refine ⟨by rw [two_pow_eq]; omega, ?_⟩
    subst hf1
    show (setBytes b + 1) % 2 ^ 256 = _
    rw [hset]

/-- A call that does not reseed returns the stored value; when the stored value is `w + 1`
modulo `2^256`, no wrap-around has happened. -/
theorem keep_value_successor (w : Nat) (f1 : FastEntropy) (hw : w < 2 ^ 256)
    (hf : f1.entropyInt = (w + 1) % 2 ^ 256) (hk : mustReseed f1 = false) :
    beValue (bytes f1.entropyInt) = w + 1 := by
  have hne : f1.entropyInt ≠ 0 :=
    shapeValid_ne_zero _ ((mustReseed_eq_false_iff_shape f1).1 hk).1
  rw [beValue_bytes, hf, Nat.mod_mod]
  rw [hf] at hne
  generalize (2 : Nat) ^ 256 = m at hw hne ⊢
  have hle : w + 1 ≤ m := hw
  rcases Nat.lt_or_ge (w + 1) m with hlt | hge
  · exact Nat.mod_eq_of_lt hlt
  · have : w + 1 = m := le_antisymm hle hge
    rw [this, Nat.mod_self] at hne
    exact absurd rfl hne

theorem two_calls_successor (src : RandSource) (d : Nat) (f : FastEntropy)
    (b1 : List Byte) (f1 : FastEntropy) (d1 : Nat) (b2 : List Byte) (f2 : FastEntropy)
    (d2 : Nat) (h1 : Next src d f = (Except.ok b1, f1, d1))
    (h2 : Next src d1 f1 = (Except.ok b2, f2, d2)) (hno : d2 = d1) :
    beValue b2 = beValue b1 + 1 := by
  obtain ⟨hw, hf1⟩ := Next_ok_value src d f b1 f1 d1 h1
  rcases Next_ok_cases src d1 f1 b2 f2 d2 h2 with ⟨hk, hb, -, -⟩ | ⟨-, -, g, -, -, -, hd⟩
  · rw [hb]
    exact keep_value_successor (beValue b1) f1 hw hf1 hk
  · omega

theorem NewFastEntropy_ok (src : RandSource) (d : Nat) (bitSize : Int) (mc : List Nat)
    (g : Nat → Byte) (hv : validateEntropyBitSize bitSize = none) (hs : src d = some g) :
    NewFastEntropy src d bitSize mc
      = (Except.ok { bitSize := bitSize, count := 0,
                     maxCumulative := pickMax mc,
                     entropyInt :=
                       setBytes ((List.range (Int.toNat (Int.tdiv bitSize 8))).map g) },
          d + 1) := by
  unfold NewFastEntropy
  rw [NewEntropy_ok src d bitSize g hv hs]

/-- What a successful construction has done. -/
theorem NewFastEntropy_ok_cases (src : RandSource) (d : Nat) (bitSize : Int) (mc : List Nat)
    (f : FastEntropy) (d1 : Nat) (h : NewFastEntropy src d bitSize mc = (Except.ok f, d1)) :
    validateEntropyBitSize bitSize = none ∧ d1 = d + 1 ∧
    ∃ g, src d = some g ∧
      f = { bitSize := bitSize, count := 0,
            maxCumulative := pickMax mc,
            entropyInt := setBytes ((List.range (Int.toNat (Int.tdiv bitSize 8))).map g) } := by
  by_cases hv : validateEntropyBitSize bitSize = none
  · cases hs : src d with
    | none =>
      unfold NewFastEntropy at h
      rw [NewEntropy_fail src d bitSize hv hs] at h
      simp at h
    | some g =>
      rw [NewFastEntropy_ok src d bitSize mc g hv hs] at h
      simp only [Prod.mk.injEq, Except.ok.injEq] at h
      exact ⟨hv, h.2.symm, g, rfl, h.1.symm⟩
  · have hn : ¬ (bitSize % 32 = 0 ∧ 128 ≤ bitSize ∧ bitSize ≤ 256) := by
      intro hc
      exact hv ((validate_eq_none_iff _).2 hc)
    unfold NewFastEntropy at h
    rw [NewEntropy_invalid src d bitSize hn] at h
    simp at h

theorem fresh_value_lt (g : Nat → Byte) (n : Nat) (hn : n ≤ 32) :
    setBytes ((List.range n).map g) < 256 ^ n := by
  have hlen : ((List.range n).map g).length = n := by
    rw [List.length_map, List.length_range]
  rw [setBytes_of_short _ (by omega)]
  have := beValue_lt ((List.range n).map g)
  rwa [hlen] at this

theorem NewFastEntropy_bounded (src : RandSource) (d : Nat) (bitSize : Int) (mc : List Nat)
    (f : FastEntropy) (d1 : Nat) (h : NewFastEntropy src d bitSize mc = (Except.ok f, d1)) :
    ∃ n, valueBounded f n ∧ f.bitSize = bitSize ∧ f.count = 0 := by
  obtain ⟨hv, -, g, -, hf⟩ := NewFastEntropy_ok_cases src d bitSize mc f d1 h
  obtain ⟨n, hn, hdiv, h16, h32, h4⟩ := valid_size_bytes bitSize hv
  subst hf
  refine ⟨n, ⟨hv, hn, hdiv, h16, h32, h4, ?_, ?_⟩, rfl, rfl⟩
  · show setBytes _ ≤ 256 ^ n
    rw [hdiv]
    exact le_of_lt (fresh_value_lt g n h32)
  · show setBytes _ < 2 ^ 256
    rw [hdiv, two_pow_eq]
    exact lt_of_lt_of_le (fresh_value_lt g n h32) (Nat.pow_le_pow_right (by norm_num) h32)

/-- One call from a bounded state, when the read (if any) succeeds: the call succeeds, the
state stays bounded, the returned length is valid and at most `n`, and is `n` when the
call read the source. -/
theorem Next_step_bounded (src : RandSource) (d : Nat) (f : FastEntropy) (n : Nat)
    (hs : src d ≠ none) (hI : valueBounded f n) :
    ∃ b f1 d1, Next src d f = (Except.ok b, f1, d1) ∧ valueBounded f1 n ∧
      b.length % 4 = 0 ∧ 16 ≤ b.length ∧ b.length ≤ n ∧ (0 < d1 - d → b.length = n) := by
  obtain ⟨hv, hn, hdiv, h16, h32, h4, hle, hlt⟩ := hI
  have hpow : (256 : Nat) ^ n ≤ 2 ^ 256 := by
    rw [two_pow_eq]
    exact Nat.pow_le_pow_right (by norm_num) h32
  cases hr : mustReseed f with
  | false =>
    obtain ⟨hshape, -⟩ := (mustReseed_eq_false_iff_shape f).1 hr
    obtain ⟨hs4, hs16, hs32⟩ := (shapeValid_iff _).1 hshape
    have hvlt : f.entropyInt < 256 ^ n := by
      rcases Nat.lt_or_ge f.entropyInt (256 ^ n) with h | h
      · exact h
      · exfalso
        have hn32 : n < 32 := by
          rcases Nat.lt_or_ge n 32 with h1 | h1
          · exact h1
          · have : n = 32 := le_antisymm h32 h1
            subst this
            rw [two_pow_eq] at hlt
            omega
        have h1 : n < (bytes f.entropyInt).length := length_bytesAux_gt 32 _ n h hn32
        have h2 : (bytes f.entropyInt).length ≤ n + 1 :=
          length_bytesAux_le 32 _ (n + 1) (by
            have : f.entropyInt = 256 ^ n := le_antisymm hle h
            rw [this, pow_succ]
            have : 0 < 256 ^ n := by positivity
            omega)
        omega
    refine ⟨bytes f.entropyInt, deferred f, d, Next_keep src d f hr, ?_, hs4, hs16,
      length_bytesAux_le 32 _ n hvlt, ?_⟩
    · refine ⟨hv, hn, hdiv, h16, h32, h4, ?_, Nat.mod_lt _ (by positivity)⟩
      show (f.entropyInt + 1) % 2 ^ 256 ≤ 256 ^ n
      exact le_trans (Nat.mod_le _ _) hvlt
    · intro h0
      omega
  | true =>
    cases hsd : src d with
    | none => exact absurd hsd hs
    | some g =>
      refine ⟨_, _, _, Next_reseed_ok src d f g hr hv hsd, ?_, ?_⟩
      · refine ⟨hv, hn, hdiv, h16, h32, h4, ?_, Nat.mod_lt _ (by positivity)⟩
        show (setBytes _ + 1) % 2 ^ 256 ≤ 256 ^ n
        rw [hdiv]
        exact le_trans (Nat.mod_le _ _) (fresh_value_lt g n h32)
      · rw [List.length_map, List.length_range, hdiv]
        refine ⟨h4, h16, le_refl _, fun _ => rfl⟩

theorem runNext_bounded (src : RandSource) (hs : ∀ k, src k ≠ none) (n : Nat) :
    ∀ (k d : Nat) (f : FastEntropy), valueBounded f n →
      ∀ c ∈ runNext src k d f, ∃ b, c.result = Except.ok b ∧
        b.length % 4 = 0 ∧ 16 ≤ b.length ∧ b.length ≤ n ∧ (c.reseeded = true → b.length = n) := by
  intro k
  induction k with
  | zero =>
    intro d f _ c hc
    simp [runNext] at hc
  | succ k ih =>
    intro d f hI c hc
    obtain ⟨b, f1, d1, hN, hI1, h4, h16, hn, hre⟩ := Next_step_bounded src d f n (hs d) hI
    simp only [runNext, hN, List.mem_cons] at hc
    rcases hc with hc | hc
    · subst hc
      refine ⟨b, rfl, h4, h16, hn, ?_⟩
      intro hflag
      apply hre
      simpa [Call.reseeded] using hflag
    · exact ih d1 f1 hI1 c hc

theorem deferred_iter_max (i : Nat) (g : FastEntropy) :
    (deferred^[i] g).maxCumulative = g.maxCumulative := by
  induction i generalizing g with
  | zero => rfl
  | succ i ih =>
    rw [Function.iterate_succ_apply, ih]
    rfl

theorem deferred_iter_bitSize (i : Nat) (g : FastEntropy) :
    (deferred^[i] g).bitSize = g.bitSize := by
  induction i generalizing g with
  | zero => rfl
  | succ i ih =>
    rw [Function.iterate_succ_apply, ih]
    rfl

theorem deferred_iter_count (i : Nat) (g : FastEntropy) (h : g.count + i < 2 ^ 64) :
    (deferred^[i] g).count = g.count + i := by
  induction i generalizing g with
  | zero => rfl
  | succ i ih =>
    have hc : (deferred g).count = g.count + 1 := by
      show (g.count + 1) % 2 ^ 64 = g.count + 1
      exact Nat.mod_eq_of_lt (by omega)
    rw [Function.iterate_succ_apply, ih (deferred g) (by omega), hc]
    omega

theorem deferred_iter_count_le (i : Nat) (g : FastEntropy) :
    (deferred^[i] g).count ≤ g.count + i := by
  induction i generalizing g with
  | zero => exact le_refl _
  | succ i ih =>
    have hc : (deferred g).count ≤ g.count + 1 := Nat.mod_le _ _
    rw [Function.iterate_succ_apply]
    have := ih (deferred g)
    omega

theorem deferred_iter_value (i : Nat) (g : FastEntropy) (h : g.entropyInt < 2 ^ 256) :
    (deferred^[i] g).entropyInt = (g.entropyInt + i) % 2 ^ 256 := by
  induction i generalizing g with
  | zero => exact (Nat.mod_eq_of_lt h).symm
  | succ i ih =>
    have hv : (deferred g).entropyInt = (g.entropyInt + 1) % 2 ^ 256 := rfl
    rw [Function.iterate_succ_apply, ih (deferred g) (by rw [hv]; exact Nat.mod_lt _ (by positivity)),
      hv, Nat.mod_add_mod]
    congr 1
    omega

/-- While the test of `Next` stays false, calls read nothing and only the deferred
function acts on the generator. -/
theorem runNext_keep (src : RandSource) (k m : Nat) :
    ∀ (d : Nat) (g : FastEntropy), (∀ i, i < k → mustReseed (deferred^[i] g) = false) →
      (runNext src (k + m) d g).map Call.drew
        = List.replicate k 0 ++ (runNext src m d (deferred^[k] g)).map Call.drew := by
  induction k with
  | zero =>
    intro d g _
    simp
  | succ k ih =>
    intro d g h
    have h0 : mustReseed g = false := h 0 (by omega)
    have hrest : ∀ i, i < k → mustReseed (deferred^[i] (deferred g)) = false := by
      intro i hi
      have := h (i + 1) (by omega)
      rwa [Function.iterate_succ_apply] at this
    have hk : k + 1 + m = (k + m) + 1 := by omega
    rw [hk]
    simp only [runNext, Next_keep src d g h0, List.map_cons, Nat.sub_self,
      List.replicate_succ, List.cons_append, Function.iterate_succ_apply]
    rw [ih d (deferred g) hrest]

/-- The test of `Next` along a stretch of calls, from the shape of the values and the
distance of the counter to the threshold. -/
theorem mustReseed_iter_false (g : FastEntropy) (k : Nat) (hv : g.entropyInt < 2 ^ 256)
    (hc : g.count + k ≤ g.maxCumulative)
    (hshape : ∀ i, i < k → shapeValid ((g.entropyInt + i) % 2 ^ 256) = true) :
    ∀ i, i < k → mustReseed (deferred^[i] g) = false := by
  intro i hi
  rw [mustReseed_eq_false_iff_shape, deferred_iter_value i g hv, deferred_iter_max]
  refine ⟨hshape i hi, ?_⟩
  have := deferred_iter_count_le i g
  omega

theorem mustReseed_of_count (g : FastEntropy) (h : g.maxCumulative ≤ g.count) :
    mustReseed g = true := by
  unfold mustReseed
  simp [h]

/-- Runs never get longer than the threshold, as long as the calls succeed. -/
theorem runLengths_le (src : RandSource) (k : Nat) :
    ∀ (d : Nat) (g : FastEntropy), 1 ≤ g.maxCumulative → g.maxCumulative < 2 ^ 64 →
      g.count ≤ g.maxCumulative →
      (∀ c ∈ runNext src k d g, c.result.isOk = true) →
      ∀ r ∈ runLengths g.count ((runNext src k d g).map Call.reseeded),
        r ≤ g.maxCumulative := by
  induction k with
  | zero =>
    intro d g _ _ hc _ r hr
    simp only [runNext, List.map_nil, runLengths, List.mem_singleton] at hr
    omega
  | succ k ih =>
    intro d g h1 h64 hc hok r hr
    rcases hN : Next src d g with ⟨res, g1, d1⟩
    simp only [runNext, hN, List.mem_cons, forall_eq_or_imp] at hok
    obtain ⟨hres, hok1⟩ := hok
    cases res with
    | error e => simp [Except.isOk, Except.toBool] at hres
    | ok b =>
      simp only [runNext, hN, List.map_cons] at hr
      rcases Next_ok_cases src d g b g1 d1 hN with
        ⟨hk, -, hg1, hd1⟩ | ⟨-, -, g0, -, -, hg1, hd1⟩
      · obtain ⟨-, hlt⟩ := (mustReseed_eq_false_iff_shape g).1 hk
        have hcount : g1.count = g.count + 1 := by
          rw [hg1]
          show (g.count + 1) % 2 ^ 64 = g.count + 1
          exact Nat.mod_eq_of_lt (by omega)
        have hmax : g1.maxCumulative = g.maxCumulative := by rw [hg1]; rfl
        have hflag : Call.reseeded { result := Except.ok b, drew := d1 - d } = false := by
          simp [Call.reseeded, hd1]
        rw [hflag] at hr
        simp only [runLengths] at hr
        rw [← hcount] at hr
        have := ih d1 g1 (by omega) (by omega) (by omega) hok1 r hr
        omega
      · have hcount : g1.count = 1 := by
          rw [hg1]
          show (0 + 1) % 2 ^ 64 = 1
          norm_num
        have hmax : g1.maxCumulative = g.maxCumulative := by rw [hg1]; rfl
        have hflag : Call.reseeded { result := Except.ok b, drew := d1 - d } = true := by
          simp [Call.reseeded, hd1]
        rw [hflag] at hr
        simp only [runLengths, List.mem_cons] at hr
        rcases hr with hr | hr
        · omega
        · rw [← hcount] at hr
          have := ih d1 g1 (by omega) (by omega) (by omega) hok1 r hr
          omega

theorem Next_preserves (src : RandSource) (d : Nat) (f : FastEntropy) :
    (Next src d f).2.1.bitSize = f.bitSize ∧
    (Next src d f).2.1.maxCumulative = f.maxCumulative := by
  cases hr : mustReseed f with
  | false =>
    rw [Next_keep src d f hr]
    exact ⟨rfl, rfl⟩
  | true =>
    by_cases hv : validateEntropyBitSize f.bitSize = none
    · cases hs : src d with
      | none =>
        rw [Next_reseed_fail src d f hr hv hs]
        exact ⟨rfl, rfl⟩
      | some g =>
        rw [Next_reseed_ok src d f g hr hv hs]
        exact ⟨rfl, rfl⟩
    · rw [Next_reseed_invalid src d f hr hv]
      exact ⟨rfl, rfl⟩

theorem stateAfter_succ (src : RandSource) (k d : Nat) (f : FastEntropy) :
    stateAfter src (k + 1) d f
      = stateAfter src k (Next src d f).2.2 (Next src d f).2.1 := rfl

theorem stateAfter_bounded (src : RandSource) (hs : ∀ i, src i ≠ none) (n k : Nat) :
    ∀ (d : Nat) (f : FastEntropy), valueBounded f n →
      valueBounded (stateAfter src k d f).1 n := by
  induction k with
  | zero =>
    intro d f hI
    exact hI
  | succ k ih =>
    intro d f hI
    obtain ⟨b, f1, d1, hN, hI1, -⟩ := Next_step_bounded src d f n (hs d) hI
    rw [stateAfter_succ, hN]
    exact ih d1 f1 hI1

/-- With threshold 0 every call must reseed, so every call reads the source once. -/
theorem stateAfter_threshold_zero (src : RandSource) (k : Nat) :
    ∀ (d : Nat) (f : FastEntropy), f.maxCumulative = 0 →
      validateEntropyBitSize f.bitSize = none →
      (stateAfter src k d f).1.maxCumulative = 0 ∧
      (stateAfter src k d f).1.bitSize = f.bitSize ∧
      (stateAfter src k d f).2 = d + k := by
  induction k with
  | zero =>
    intro d f h0 _
    exact ⟨h0, rfl, rfl⟩
  | succ k ih =>
    intro d f h0 hv
    have hr : mustReseed f = true := mustReseed_of_count f (by omega)
    obtain ⟨hb, hm⟩ := Next_preserves src d f
    have hd : (Next src d f).2.2 = d + 1 := by
      cases hs : src d with
      | none => rw [Next_reseed_fail src d f hr hv hs]
      | some g => rw [Next_reseed_ok src d f g hr hv hs]
    obtain ⟨i1, i2, i3⟩ := ih (Next src d f).2.2 (Next src d f).2.1 (by rw [hm, h0])
      (by rw [hb]; exact hv)
    rw [stateAfter_succ]
    refine ⟨i1, by rw [i2, hb], ?_⟩
    rw [i3, hd]
    omega

theorem Call.value_ok (b : List Byte) (n : Nat) :
    Call.value { result := Except.ok b, drew := n } = beValue b := rfl

/-- Along calls that all succeed and, after the first, read nothing, each value is the
one before plus one. -/
theorem runNext_chain (src : RandSource) (n : Nat) :
    ∀ (d : Nat) (f : FastEntropy), (∀ c ∈ runNext src n d f, c.result.isOk = true) →
      (∀ c ∈ (runNext src n d f).tail, c.drew = 0) →
      List.Chain' (fun a b => b = a + 1) ((runNext src n d f).map Call.value) := by
  induction n with
  | zero =>
    intro d f _ _
    simp [runNext]
  | succ n ih =>
    intro d f hok hno
    rcases hN : Next src d f with ⟨r, f1, d1⟩
    have hrun : runNext src (n + 1) d f
        = { result := r, drew := d1 - d } :: runNext src n d1 f1 := by
      simp only [runNext, hN]
    rw [hrun] at hok hno ⊢
    simp only [List.tail_cons] at hno
    cases n with
    | zero => simp [runNext]
    | succ m =>
      rcases hN2 : Next src d1 f1 with ⟨r2, f2, d2⟩
      have hrun2 : runNext src (m + 1) d1 f1
          = { result := r2, drew := d2 - d1 } :: runNext src m d2 f2 := by
        simp only [runNext, hN2]
      have ih1 := ih d1 f1 (fun c hc => hok c (List.mem_cons_of_mem _ hc))
        (fun c hc => hno c (List.mem_of_mem_tail hc))
      rw [hrun2] at ih1 hno hok ⊢
      simp only [List.map_cons, List.chain'_cons] at ih1 ⊢
      refine ⟨?_, ih1⟩
      have h1 := hok _ (List.mem_cons_self _ _)
      have h2 := hok _ (List.mem_cons_of_mem _ (List.mem_cons_self _ _))
      have h3 : d2 - d1 = 0 := hno _ (List.mem_cons_self _ _)
      cases r with
      | error e => simp [Except.isOk, Except.toBool] at h1
      | ok b1 =>
        cases r2 with
        | error e => simp [Except.isOk, Except.toBool] at h2
        | ok b2 =>
          rw [Call.value_ok, Call.value_ok]
          have hd : d2 = d1 := by
            rcases Next_ok_cases src d1 f1 b2 f2 d2 hN2 with ⟨-, -, -, hd⟩ | ⟨-, -, g, -, -, -, hd⟩
            · exact hd
            · omega
          exact two_calls_successor src d f b1 f1 d1 b2 f2 d2 hN hN2 hd

theorem beValue_all_ones : beValue (List.replicate 32 (255 : Byte)) = 2 ^ 256 - 1 := by
  decide

/-! ## The claims -/

/-- C1, as stated, fails: with size 256 and a source whose bytes start with four zero
bytes, construction succeeds, and the first call of `Next` reads nothing and returns the
minimal representation of the seed value, which has 28 bytes and not `256/8 = 32`. -/
theorem returned_length_can_be_shorter :
    NewFastEntropy (constSource lowSeed) 0 256 []
      = (Except.ok ⟨256, 0, 2048, setBytes ((List.range 32).map lowSeed)⟩, 1) ∧
    Next (constSource lowSeed) 1 ⟨256, 0, 2048, setBytes ((List.range 32).map lowSeed)⟩
      = (Except.ok (bytes (setBytes ((List.range 32).map lowSeed))),
          ⟨256, 1, 2048, setBytes ((List.range 32).map lowSeed) + 1⟩, 1) ∧
    (bytes (setBytes ((List.range 32).map lowSeed))).length = 28 ∧
    ((28 : Nat) : Int) ≠ 256 / 8 := by
  refine ⟨by rfl, by rfl, by decide, by decide⟩

/-- C1, amended: for a generator built by `NewFastEntropy` and any number of calls of
`Next` with a source that never fails, every call succeeds and the value it returns has a
length of 16, 20, 24, 28 or 32 bytes that is at most `bitSize/8`; the length is exactly
`bitSize/8` when the call reseeds. -/
theorem returned_length_valid (src : RandSource) (d0 : Nat) (bitSize : Int) (mc : List Nat)
    (f : FastEntropy) (d k : Nat) (hs : ∀ i, src i ≠ none)
    (hf : NewFastEntropy src d0 bitSize mc = (Except.ok f, d)) :
    ∀ c ∈ runNext src k d f, ∃ b, c.result = Except.ok b ∧
      b.length % 4 = 0 ∧ 16 ≤ b.length ∧ (b.length : Int) ≤ bitSize / 8 ∧
      (c.reseeded = true → (b.length : Int) = bitSize / 8) := by
  obtain ⟨n, hI, hbs, -⟩ := NewFastEntropy_bounded src d0 bitSize mc f d hf
  have hn : bitSize = 8 * (n : Int) := hbs ▸ hI.2.1
  intro c hc
  obtain ⟨b, hb, h4, h16, hle, hre⟩ := runNext_bounded src hs n k d f hI c hc
  refine ⟨b, hb, h4, h16, by omega, ?_⟩
  intro hflag
  have := hre hflag
  omega

theorem returned_length_valid_witness :
    (∀ i, constSource lowSeed i ≠ none) ∧
    NewFastEntropy (constSource lowSeed) 0 256 [2]
      = (Except.ok ⟨256, 0, 2, setBytes ((List.range 32).map lowSeed)⟩, 1) ∧
    ∀ c ∈ runNext (constSource lowSeed) 5 1 ⟨256, 0, 2, setBytes ((List.range 32).map lowSeed)⟩,
      ∃ b, c.result = Except.ok b ∧
        b.length % 4 = 0 ∧ 16 ≤ b.length ∧ (b.length : Int) ≤ 256 / 8 ∧
        (c.reseeded = true → (b.length : Int) = 256 / 8) :=
  ⟨fun _ => by simp [constSource], by rfl,
   returned_length_valid (constSource lowSeed) 0 256 [2]
     ⟨256, 0, 2, setBytes ((List.range 32).map lowSeed)⟩ 1 5
     (fun _ => by simp [constSource]) (by rfl)⟩

/-- C2, as stated, fails: with the threshold reached (`count = 3`, threshold 3) the call
must reseed, the source fails, `Next` returns the source's error, and the deferred function
has still advanced `count` from 3 to 4 and the value from `2^127` to `2^127 + 1`. -/
theorem failed_reseed_changes_state :
    mustReseed ⟨128, 3, 3, 2 ^ 127⟩ = true ∧ failingSource 0 = none ∧
    Next failingSource 0 ⟨128, 3, 3, 2 ^ 127⟩
      = (Except.error Error.randomSource, ⟨128, 4, 3, 2 ^ 127 + 1⟩, 1) ∧
    (⟨128, 4, 3, 2 ^ 127 + 1⟩ : FastEntropy) ≠ ⟨128, 3, 3, 2 ^ 127⟩ := by
  refine ⟨by decide, rfl, rfl, by decide⟩

/-- C2, amended: when `Next` must reseed and the read of the source fails, `Next` returns
the source's error and no bytes, the reseed assignments are skipped, and the deferred
function still runs: afterwards `count` is the old count plus one (modulo `2^64`),
the value is the old value plus one (modulo `2^256`), size and threshold are unchanged. -/
theorem failed_reseed_still_increments (src : RandSource) (d : Nat) (f : FastEntropy)
    (hr : mustReseed f = true) (hv : validateEntropyBitSize f.bitSize = none)
    (hs : src d = none) :
    Next src d f
      = (Except.error Error.randomSource,
          { bitSize := f.bitSize, count := (f.count + 1) % 2 ^ 64,
            maxCumulative := f.maxCumulative, entropyInt := (f.entropyInt + 1) % 2 ^ 256 },
          d + 1) :=
  Next_reseed_fail src d f hr hv hs

theorem failed_reseed_still_increments_witness :
    Next failingSource 7 ⟨256, 5, 5, 2 ^ 256 - 1⟩
      = (Except.error Error.randomSource, ⟨256, 6, 5, 0⟩, 8) :=
  failed_reseed_still_increments failingSource 7 ⟨256, 5, 5, 2 ^ 256 - 1⟩
    (by decide) (by decide) rfl

/-- C6, as stated, fails, in two ways. With threshold 3, a call that reseeds to the fresh
value `2^127` leaves the counter at 1, so of the next three calls the third reads the
source again. And when the fresh bytes start with zero bytes (here four of sixteen), the
value that is stored has no valid length, so the very next call reads the source. -/
theorem reseed_again_within_threshold :
    (Next (constSource highBit) 0 ⟨128, 3, 3, 2 ^ 127 + 3⟩
        = (Except.ok ((List.range 16).map highBit), ⟨128, 1, 3, 2 ^ 127 + 1⟩, 1) ∧
      (runNext (constSource highBit) 3 1 ⟨128, 1, 3, 2 ^ 127 + 1⟩).map Call.drew = [0, 0, 1]) ∧
    (Next (constSource lowSeed) 0 ⟨128, 3, 3, 2 ^ 127 + 3⟩
        = (Except.ok ((List.range 16).map lowSeed),
            ⟨128, 1, 3, setBytes ((List.range 16).map lowSeed) + 1⟩, 1) ∧
      (runNext (constSource lowSeed) 3 1
          ⟨128, 1, 3, setBytes ((List.range 16).map lowSeed) + 1⟩).map Call.drew
        = [1, 1, 1]) := by
  refine ⟨⟨by rfl, by decide⟩, ⟨by rfl, by decide⟩⟩

/-- C6, amended: after a call of `Next` that reseeds successfully and returns the fresh
bytes of value `F`, with threshold `T`, none of the next `k` calls reads the source, for
every `k ≤ T - 1`, provided the minimal byte representations of `F + 1`, ..., `F + k`
(modulo `2^256`) have a valid entropy length. -/
theorem no_reseed_below_threshold (src : RandSource) (d : Nat) (f : FastEntropy)
    (b : List Byte) (f1 : FastEntropy) (d1 k : Nat)
    (h : Next src d f = (Except.ok b, f1, d1)) (hd : d1 = d + 1)
    (hk : k + 1 ≤ f.maxCumulative)
    (hshape : ∀ j, 1 ≤ j → j ≤ k → shapeValid ((beValue b + j) % 2 ^ 256) = true) :
    (runNext src k d1 f1).map Call.drew = List.replicate k 0 := by
  obtain ⟨-, hval⟩ := Next_ok_value src d f b f1 d1 h
  rcases Next_ok_cases src d f b f1 d1 h with ⟨-, -, -, hd1⟩ | ⟨-, -, g, -, -, hf1, -⟩
  · omega
  · have hcount : f1.count = 1 := by
      rw [hf1]
      show (0 + 1) % 2 ^ 64 = 1
      norm_num
    have hmax : f1.maxCumulative = f.maxCumulative := by rw [hf1]; rfl
    have hlt : f1.entropyInt < 2 ^ 256 := by
      rw [hval]
      exact Nat.mod_lt _ (by positivity)
    have hkeep := mustReseed_iter_false f1 k hlt (by omega) (by
      intro i hi
      have := hshape (i + 1) (by omega) (by omega)
      rw [hval, Nat.mod_add_mod]
      rwa [Nat.add_assoc, Nat.add_comm 1 i])
    have := runNext_keep src k 0 d1 f1 hkeep
    simpa [runNext] using this

theorem no_reseed_below_threshold_witness :
    (runNext (constSource highBit) 2 1 ⟨128, 1, 3, 2 ^ 127 + 1⟩).map Call.drew
      = List.replicate 2 0 :=
  no_reseed_below_threshold (constSource highBit) 0 ⟨128, 3, 3, 2 ^ 127 + 3⟩
    ((List.range 16).map highBit) ⟨128, 1, 3, 2 ^ 127 + 1⟩ 1 2 (by rfl) rfl (by decide)
    (by decide)

/-- C7: a size that is not a multiple of 32 in `[128, 256]` (zero and negative sizes
included) makes `NewEntropy` and `NewFastEntropy` return the invalid-size error, with no
bytes and no generator, and the number of reads of the source is unchanged. -/
theorem invalid_size_rejected_before_any_draw (src : RandSource) (d : Nat) (bitSize : Int)
    (maxCumulative : List Nat)
    (h : ¬ (bitSize % 32 = 0 ∧ 128 ≤ bitSize ∧ bitSize ≤ 256)) :
    NewEntropy src d bitSize = (Except.error Error.invalidSize, d) ∧
    NewFastEntropy src d bitSize maxCumulative = (Except.error Error.invalidSize, d) := by
  have h1 := NewEntropy_invalid src d bitSize h
  refine ⟨h1, ?_⟩
  unfold NewFastEntropy
  rw [h1]

theorem invalid_size_rejected_before_any_draw_witness :
    NewEntropy (constSource highBit) 4 (-32) = (Except.error Error.invalidSize, 4) ∧
    NewFastEntropy (constSource highBit) 4 (-32) [3] = (Except.error Error.invalidSize, 4) :=
  invalid_size_rejected_before_any_draw (constSource highBit) 4 (-32) [3] (by decide)

/-- C8: for a size among 128, 160, 192, 224, 256, a successful read makes `NewEntropy`
return no error and exactly `bitSize/8` bytes, byte `i` being the byte the source wrote
at index `i`, after one read; a failed read makes it return an error and no bytes. -/
theorem NewEntropy_returns_source_bytes (src : RandSource) (d : Nat) (bitSize : Int)
    (hb : bitSize = 128 ∨ bitSize = 160 ∨ bitSize = 192 ∨ bitSize = 224 ∨ bitSize = 256) :
    (∀ g, src d = some g →
      ∃ entropy, NewEntropy src d bitSize = (Except.ok entropy, d + 1) ∧
        (entropy.length : Int) = bitSize / 8 ∧
        entropy = (List.range entropy.length).map g) ∧
    (src d = none → NewEntropy src d bitSize = (Except.error Error.randomSource, d + 1)) := by
  have hv : validateEntropyBitSize bitSize = none := by
    rw [validate_eq_none_iff]
    omega
  obtain ⟨n, hn, hdiv, -, -, -⟩ := valid_size_bytes bitSize hv
  constructor
  · intro g hs
    refine ⟨(List.range n).map g, ?_, ?_, ?_⟩
    · rw [NewEntropy_ok src d bitSize g hv hs, hdiv]
    · rw [List.length_map, List.length_range, hn]
      omega
    · rw [List.length_map, List.length_range]
  · intro hs
    exact NewEntropy_fail src d bitSize hv hs

theorem NewEntropy_returns_source_bytes_witness :
    (∃ entropy, NewEntropy (constSource lowSeed) 0 160 = (Except.ok entropy, 1) ∧
        (entropy.length : Int) = 160 / 8 ∧
        entropy = (List.range entropy.length).map lowSeed) ∧
    NewEntropy failingSource 0 160 = (Except.error Error.randomSource, 1) :=
  ⟨(NewEntropy_returns_source_bytes (constSource lowSeed) 0 160 (by decide)).1 lowSeed rfl,
   (NewEntropy_returns_source_bytes failingSource 0 160 (by decide)).2 rfl⟩

/-- C3, as stated, fails: with size 128, threshold 3 and a source that never fails but
writes zero bytes, construction reads the source once and the seed value is 0; its
minimal representation is empty, so the very first call of `Next` reads the source, and
so do the three calls after it. -/
theorem zero_seed_draws_at_first_call :
    NewFastEntropy (constSource (fun _ => 0)) 0 128 [3] = (Except.ok ⟨128, 0, 3, 0⟩, 1) ∧
    (runNext (constSource (fun _ => 0)) 4 1 ⟨128, 0, 3, 0⟩).map Call.drew = [1, 1, 1, 1] := by
  refine ⟨by rfl, by decide⟩

/-- C3, amended: for a valid size, threshold 3 and a source that never fails, construction
succeeds and reads the source exactly once; if the minimal byte representations of the
seed value `v`, of `v + 1` and of `v + 2` (modulo `2^256`) have a valid entropy length,
then the first three calls of `Next` read nothing and the fourth reads the source exactly
once. -/
theorem threshold_three_draw_counts (src : RandSource) (d : Nat) (bitSize : Int)
    (hv : validateEntropyBitSize bitSize = none) (hs : ∀ i, src i ≠ none) :
    ∃ f, NewFastEntropy src d bitSize [3] = (Except.ok f, d + 1) ∧
      ((∀ j, j < 3 → shapeValid ((f.entropyInt + j) % 2 ^ 256) = true) →
        (runNext src 4 (d + 1) f).map Call.drew = [0, 0, 0, 1]) := by
  cases hsd : src d with
  | none => exact absurd hsd (hs d)
  | some g =>
    have hnew := NewFastEntropy_ok src d bitSize [3] g hv hsd
    refine ⟨_, hnew, ?_⟩
    intro hshape
    obtain ⟨n, hI, -, -⟩ := NewFastEntropy_bounded src d bitSize [3] _ (d + 1) hnew
    have hkeep := mustReseed_iter_false _ 3 hI.2.2.2.2.2.2.2 (le_refl 3) hshape
    rw [runNext_keep src 3 1 (d + 1) _ hkeep]
    cases hsd1 : src (d + 1) with
    | none => exact absurd hsd1 (hs (d + 1))
    | some g1 =>
      have hre : mustReseed (deferred^[3] (⟨bitSize, 0, pickMax [3],
          setBytes ((List.range (Int.toNat (Int.tdiv bitSize 8))).map g)⟩ : FastEntropy))
          = true := by
        apply mustReseed_of_count
        rw [deferred_iter_max, deferred_iter_count 3 _ (by norm_num)]
        exact le_refl 3
      have hvs : validateEntropyBitSize (deferred^[3] (⟨bitSize, 0, pickMax [3],
          setBytes ((List.range (Int.toNat (Int.tdiv bitSize 8))).map g)⟩ : FastEntropy)).bitSize
          = none := by
        rw [deferred_iter_bitSize]
        exact hv
      have hN := Next_reseed_ok src (d + 1) _ g1 hre hvs hsd1
      have h1 : ∀ g0 : FastEntropy, runNext src 1 (d + 1) g0
          = [{ result := (Next src (d + 1) g0).1,
               drew := (Next src (d + 1) g0).2.2 - (d + 1) }] := fun _ => rfl
      rw [h1, hN]
      simp

theorem threshold_three_draw_counts_witness :
    validateEntropyBitSize 128 = none ∧ (∀ i, constSource highBit i ≠ none) ∧
    NewFastEntropy (constSource highBit) 0 128 [3] = (Except.ok ⟨128, 0, 3, 2 ^ 127⟩, 1) ∧
    (runNext (constSource highBit) 4 1 ⟨128, 0, 3, 2 ^ 127⟩).map Call.drew = [0, 0, 0, 1] := by
  have hnew : NewFastEntropy (constSource highBit) 0 128 [3]
      = (Except.ok ⟨128, 0, 3, 2 ^ 127⟩, 1) := by rfl
  refine ⟨by decide, fun _ => by simp [constSource], hnew, ?_⟩
  obtain ⟨f, hf, himp⟩ := threshold_three_draw_counts (constSource highBit) 0 128
    (by decide) (fun _ => by simp [constSource])
  rw [hnew] at hf
  simp only [Prod.mk.injEq, Except.ok.injEq, and_true] at hf
  subst hf
  exact himp (by decide)

/-- C4, as stated, fails: from the value `2^127` with threshold 3, two calls in a row
succeed without reading the source; the first returns the bytes of `2^127`, the second the
bytes of `2^127 + 1`, which is the first value plus one and not plus two. -/
theorem consecutive_values_not_two_apart :
    Next (constSource highBit) 0 ⟨128, 0, 3, 2 ^ 127⟩
      = (Except.ok (bytes (2 ^ 127)), ⟨128, 1, 3, 2 ^ 127 + 1⟩, 0) ∧
    Next (constSource highBit) 0 ⟨128, 1, 3, 2 ^ 127 + 1⟩
      = (Except.ok (bytes (2 ^ 127 + 1)), ⟨128, 2, 3, 2 ^ 127 + 2⟩, 0) ∧
    beValue (bytes (2 ^ 127)) = 2 ^ 127 ∧
    beValue (bytes (2 ^ 127 + 1)) = 2 ^ 127 + 1 ∧
    beValue (bytes (2 ^ 127 + 1)) ≠ beValue (bytes (2 ^ 127)) + 2 := by
  refine ⟨rfl, rfl, by decide, by decide, by decide⟩

/-- C4, amended: for two consecutive successful calls of `Next` on one generator where the
second call does not read the source, the big-endian value of the second call's bytes is
the big-endian value of the first call's bytes plus one. -/
theorem consecutive_values_one_apart (src : RandSource) (d : Nat) (f : FastEntropy)
    (b1 : List Byte) (f1 : FastEntropy) (d1 : Nat) (b2 : List Byte) (f2 : FastEntropy)
    (d2 : Nat) (h1 : Next src d f = (Except.ok b1, f1, d1))
    (h2 : Next src d1 f1 = (Except.ok b2, f2, d2)) (hno : d2 = d1) :
    beValue b2 = beValue b1 + 1 :=
  two_calls_successor src d f b1 f1 d1 b2 f2 d2 h1 h2 hno

theorem consecutive_values_one_apart_witness :
    beValue (bytes (2 ^ 159 + 6)) = beValue (bytes (2 ^ 159 + 5)) + 1 :=
  consecutive_values_one_apart failingSource 0 ⟨160, 7, 9, 2 ^ 159 + 5⟩
    (bytes (2 ^ 159 + 5)) ⟨160, 8, 9, 2 ^ 159 + 6⟩ 0
    (bytes (2 ^ 159 + 6)) ⟨160, 9, 9, 2 ^ 159 + 7⟩ 0 (by rfl) (by rfl) rfl

/-- C5: for two consecutive successful calls of `Next` where the second does not read the
source, the value of the second call's bytes is the value of the first call's bytes plus
exactly one; and when the first call reseeded (read the source once), its bytes are the
fresh bytes `F` of the source and the second call returns the bytes of `F + 1`. -/
theorem value_after_is_successor (src : RandSource) (d : Nat) (f : FastEntropy)
    (b1 : List Byte) (f1 : FastEntropy) (d1 : Nat) (b2 : List Byte) (f2 : FastEntropy)
    (d2 : Nat) (h1 : Next src d f = (Except.ok b1, f1, d1))
    (h2 : Next src d1 f1 = (Except.ok b2, f2, d2)) (hno : d2 = d1) :
    beValue b2 = beValue b1 + 1 ∧
    (d1 = d + 1 →
      ∃ g, src d = some g ∧
        b1 = (List.range (Int.toNat (Int.tdiv f.bitSize 8))).map g ∧
        b2 = bytes (beValue ((List.range (Int.toNat (Int.tdiv f.bitSize 8))).map g) + 1)) := by
  have hsucc := two_calls_successor src d f b1 f1 d1 b2 f2 d2 h1 h2 hno
  refine ⟨hsucc, ?_⟩
  intro hd
  obtain ⟨hw, hf1⟩ := Next_ok_value src d f b1 f1 d1 h1
  rcases Next_ok_cases src d f b1 f1 d1 h1 with ⟨-, -, -, hd1⟩ | ⟨-, -, g, hs, hb, -, -⟩
  · omega
  · refine ⟨g, hs, hb, ?_⟩
    rcases Next_ok_cases src d1 f1 b2 f2 d2 h2 with ⟨hk, hb2, -, -⟩ | ⟨-, -, g2, -, -, -, hd2⟩
    · have hval := keep_value_successor (beValue b1) f1 hw hf1 hk
      rw [beValue_bytes] at hval
      have hlt : f1.entropyInt < 2 ^ 256 := by
        rw [hf1]
        exact Nat.mod_lt _ (by positivity)
      rw [Nat.mod_eq_of_lt hlt] at hval
      rw [hb2, hval, hb]
    · omega

theorem value_after_is_successor_witness :
    beValue (bytes (2 ^ 127 + 1)) = beValue ((List.range 16).map highBit) + 1 ∧
    ∃ g, constSource highBit 0 = some g ∧
      (List.range 16).map highBit = (List.range 16).map g ∧
      bytes (2 ^ 127 + 1) = bytes (beValue ((List.range 16).map g) + 1) :=
  have h := value_after_is_successor (constSource highBit) 0 ⟨128, 3, 3, 2 ^ 127 + 3⟩
    ((List.range 16).map highBit) ⟨128, 1, 3, 2 ^ 127 + 1⟩ 1
    (bytes (2 ^ 127 + 1)) ⟨128, 2, 3, 2 ^ 127 + 2⟩ 1 (by rfl) (by rfl) rfl
  ⟨h.1, h.2 rfl⟩

/-- C9: for a generator built by `NewFastEntropy` whose threshold `T` is at least 1 (and a
`uint64`), and any number of calls of `Next` that all succeed, every run has at most `T`
values: a run starts with the value of a reseeding call (the first run with the first
value issued from the construction seed) and ends before the next reseeding call. -/
theorem runs_never_exceed_threshold (src : RandSource) (d0 : Nat) (bitSize : Int)
    (mc : List Nat) (f : FastEntropy) (d k : Nat)
    (hf : NewFastEntropy src d0 bitSize mc = (Except.ok f, d))
    (h1 : 1 ≤ f.maxCumulative) (h64 : f.maxCumulative < 2 ^ 64)
    (hok : ∀ c ∈ runNext src k d f, c.result.isOk = true) :
    ∀ r ∈ runLengths 0 ((runNext src k d f).map Call.reseeded), r ≤ f.maxCumulative := by
  obtain ⟨n, -, -, hcount⟩ := NewFastEntropy_bounded src d0 bitSize mc f d hf
  have := runLengths_le src k d f h1 h64 (by omega) hok
  rwa [hcount] at this

theorem runs_never_exceed_threshold_witness :
    runLengths 0 ((runNext (constSource highBit) 8 1 ⟨128, 0, 3, 2 ^ 127⟩).map Call.reseeded)
      = [3, 3, 2] ∧
    ∀ r ∈ runLengths 0
        ((runNext (constSource highBit) 8 1 ⟨128, 0, 3, 2 ^ 127⟩).map Call.reseeded),
      r ≤ 3 :=
  ⟨by decide,
   runs_never_exceed_threshold (constSource highBit) 0 128 [3] ⟨128, 0, 3, 2 ^ 127⟩ 1 8
     (by rfl) (by decide) (by decide) (by decide)⟩

/-- C11: for a generator (its size is valid), `Next` reads the source, once, if and only if
`count >= threshold` or 8 times the length of the minimal byte representation of the
stored value is not a multiple of 32 in `[128, 256]`; otherwise it reads nothing and
returns the bytes of the stored value without error. -/
theorem draw_iff_exhausted (src : RandSource) (d : Nat) (f : FastEntropy)
    (hv : validateEntropyBitSize f.bitSize = none) :
    ((Next src d f).2.2 = d + 1 ↔
      (f.maxCumulative ≤ f.count ∨
        ¬ ((8 * (bytes f.entropyInt).length) % 32 = 0 ∧ 128 ≤ 8 * (bytes f.entropyInt).length
            ∧ 8 * (bytes f.entropyInt).length ≤ 256))) ∧
    ((Next src d f).2.2 = d ∨ (Next src d f).2.2 = d + 1) ∧
    (¬ (f.maxCumulative ≤ f.count ∨
        ¬ ((8 * (bytes f.entropyInt).length) % 32 = 0 ∧ 128 ≤ 8 * (bytes f.entropyInt).length
            ∧ 8 * (bytes f.entropyInt).length ≤ 256)) →
      Next src d f = (Except.ok (bytes f.entropyInt), deferred f, d)) := by
  have hsh := shape_iff (bytes f.entropyInt).length
  cases hr : mustReseed f with
  | false =>
    obtain ⟨h1, h2⟩ := (mustReseed_eq_false_iff f).1 hr
    have h3 := hsh.1 h1
    rw [Next_keep src d f hr]
    refine ⟨⟨fun h => by simp at h, fun h => ?_⟩, Or.inl rfl, fun _ => rfl⟩
    exfalso
    omega
  | true =>
    have hcond : f.maxCumulative ≤ f.count ∨
        ¬ ((8 * (bytes f.entropyInt).length) % 32 = 0 ∧ 128 ≤ 8 * (bytes f.entropyInt).length
            ∧ 8 * (bytes f.entropyInt).length ≤ 256) := by
      by_contra hc
      have hfalse : mustReseed f = false := by
        rw [mustReseed_eq_false_iff]
        refine ⟨hsh.2 (by omega), by omega⟩
      rw [hfalse] at hr
      exact Bool.noConfusion hr
    have hd : (Next src d f).2.2 = d + 1 := by
      cases hs : src d with
      | none => rw [Next_reseed_fail src d f hr hv hs]
      | some g => rw [Next_reseed_ok src d f g hr hv hs]
    exact ⟨⟨fun _ => hcond, fun _ => hd⟩, Or.inr hd, fun h => absurd hcond h⟩

theorem draw_iff_exhausted_witness :
    ((Next failingSource 4 ⟨160, 2, 3, 2 ^ 159⟩).2.2 = 4 + 1 ↔
      ((3 : Nat) ≤ 2 ∨
        ¬ ((8 * (bytes (2 ^ 159)).length) % 32 = 0 ∧ 128 ≤ 8 * (bytes (2 ^ 159)).length
            ∧ 8 * (bytes (2 ^ 159)).length ≤ 256))) ∧
    Next failingSource 4 ⟨160, 2, 3, 2 ^ 159⟩
      = (Except.ok (bytes (2 ^ 159)), ⟨160, 3, 3, 2 ^ 159 + 1⟩, 4) :=
  have h := draw_iff_exhausted failingSource 4 ⟨160, 2, 3, 2 ^ 159⟩ (by decide)
  ⟨h.1, h.2.2 (by decide)⟩

/-- C12: for every successful call of `Next` on a generator (its value is a `uint256`):
if the call reseeds, the bytes returned are the `bitSize/8` bytes the source wrote, as
written (leading zero bytes included); if it does not, they are the minimal big-endian
representation of the value stored on entry, and their integer value is that value. -/
theorem returned_bytes_origin (src : RandSource) (d : Nat) (f : FastEntropy)
    (b : List Byte) (f1 : FastEntropy) (d1 : Nat)
    (h : Next src d f = (Except.ok b, f1, d1)) (hrange : f.entropyInt < 2 ^ 256) :
    (d1 = d ∨ d1 = d + 1) ∧
    (d1 = d + 1 →
      ∃ g, src d = some g ∧ b = (List.range b.length).map g ∧
        (b.length : Int) = f.bitSize / 8) ∧
    (d1 = d → b = bytes f.entropyInt ∧ beValue b = f.entropyInt) := by
  rcases Next_ok_cases src d f b f1 d1 h with ⟨-, hb, -, hd⟩ | ⟨-, hv, g, hs, hb, -, hd⟩
  · refine ⟨Or.inl hd, fun h1 => by omega, fun _ => ⟨hb, ?_⟩⟩
    rw [hb, beValue_bytes, Nat.mod_eq_of_lt hrange]
  · obtain ⟨n, hn, hdiv, -, -, -⟩ := valid_size_bytes f.bitSize hv
    have hlen : b.length = n := by
      rw [hb, List.length_map, List.length_range, hdiv]
    refine ⟨Or.inr hd, fun _ => ⟨g, hs, ?_, ?_⟩, fun h1 => by omega⟩
    · rw [hlen, ← hdiv]
      exact hb
    · rw [hlen, hn]
      omega

theorem returned_bytes_origin_witness :
    (∃ g, constSource lowSeed 0 = some g ∧
      (List.range 16).map lowSeed
        = (List.range ((List.range 16).map lowSeed).length).map g ∧
      ((((List.range 16).map lowSeed).length : Nat) : Int) = 128 / 8) ∧
    (bytes (2 ^ 127 + 9) = bytes (2 ^ 127 + 9) ∧ beValue (bytes (2 ^ 127 + 9)) = 2 ^ 127 + 9) :=
  ⟨(returned_bytes_origin (constSource lowSeed) 0 ⟨128, 3, 3, 2 ^ 127⟩
      ((List.range 16).map lowSeed)
      ⟨128, 1, 3, setBytes ((List.range 16).map lowSeed) + 1⟩ 1 (by rfl) (by decide)).2.1 rfl,
   (returned_bytes_origin (constSource lowSeed) 0 ⟨128, 1, 3, 2 ^ 127 + 9⟩
      (bytes (2 ^ 127 + 9)) ⟨128, 2, 3, 2 ^ 127 + 10⟩ 0 (by rfl) (by decide)).2.2 rfl⟩

/-- C13: after every successful call of `Next` (threshold a `uint64`), the stored value is
the big-endian value of the returned bytes plus one, modulo `2^256`; `count` is 1 if the
call reseeded and the count on entry plus one otherwise; size and threshold are as
before. -/
theorem state_after_successful_call (src : RandSource) (d : Nat) (f : FastEntropy)
    (b : List Byte) (f1 : FastEntropy) (d1 : Nat)
    (h : Next src d f = (Except.ok b, f1, d1)) (hT : f.maxCumulative < 2 ^ 64) :
    f1.entropyInt = (beValue b + 1) % 2 ^ 256 ∧
    (d1 = d + 1 → f1.count = 1) ∧
    (d1 = d → f1.count = f.count + 1) ∧
    (d1 = d ∨ d1 = d + 1) ∧
    f1.bitSize = f.bitSize ∧ f1.maxCumulative = f.maxCumulative := by
  obtain ⟨-, hval⟩ := Next_ok_value src d f b f1 d1 h
  rcases Next_ok_cases src d f b f1 d1 h with ⟨hk, -, hf1, hd⟩ | ⟨-, -, g, -, -, hf1, hd⟩
  · obtain ⟨-, hlt⟩ := (mustReseed_eq_false_iff_shape f).1 hk
    refine ⟨hval, fun h1 => by omega, fun _ => ?_, Or.inl hd, by rw [hf1]; rfl,
      by rw [hf1]; rfl⟩
    rw [hf1]
    show (f.count + 1) % 2 ^ 64 = f.count + 1
    exact Nat.mod_eq_of_lt (by omega)
  · refine ⟨hval, fun _ => ?_, fun h1 => by omega, Or.inr hd, by rw [hf1]; rfl,
      by rw [hf1]; rfl⟩
    rw [hf1]
    show (0 + 1) % 2 ^ 64 = 1
    norm_num

theorem state_after_successful_call_witness :
    (⟨256, 1, 7, 0⟩ : FastEntropy).entropyInt
      = (beValue ((List.range 32).map (fun _ => (255 : Byte))) + 1) % 2 ^ 256 ∧
    (⟨256, 1, 7, 0⟩ : FastEntropy).count = 1 :=
  have h := state_after_successful_call (constSource (fun _ => 255)) 0 ⟨256, 7, 7, 5⟩
    ((List.range 32).map (fun _ => (255 : Byte))) ⟨256, 1, 7, 0⟩ 1 (by rfl) (by decide)
  ⟨h.1, h.2.1 rfl⟩

/-- C14: for a valid size, when the read of the source succeeds with seed bytes `s`,
`NewFastEntropy` returns a generator with the requested size, `count` 0, the big-endian
value of `s` as stored value, and as threshold the first optional argument, or 2048 when
there is none; when the read fails it returns an error and no generator. -/
theorem NewFastEntropy_initial_state (src : RandSource) (d : Nat) (bitSize : Int)
    (mc : List Nat) (hv : validateEntropyBitSize bitSize = none) :
    (∀ g, src d = some g →
      NewFastEntropy src d bitSize mc
        = (Except.ok { bitSize := bitSize, count := 0, maxCumulative := mc.headD 2048,
                       entropyInt :=
                         beValue ((List.range (Int.toNat (Int.tdiv bitSize 8))).map g) },
            d + 1)) ∧
    (src d = none →
      NewFastEntropy src d bitSize mc = (Except.error Error.randomSource, d + 1)) := by
  constructor
  · intro g hs
    obtain ⟨n, -, hdiv, -, h32, -⟩ := valid_size_bytes bitSize hv
    have hset : setBytes ((List.range (Int.toNat (Int.tdiv bitSize 8))).map g)
        = beValue ((List.range (Int.toNat (Int.tdiv bitSize 8))).map g) := by
      apply setBytes_of_short
      rw [List.length_map, List.length_range, hdiv]
      exact h32
    have hmax : pickMax mc = mc.headD 2048 := by
      cases mc <;> rfl
    rw [NewFastEntropy_ok src d bitSize mc g hv hs, hset, hmax]
  · intro hs
    unfold NewFastEntropy
    rw [NewEntropy_fail src d bitSize hv hs]

theorem NewFastEntropy_initial_state_witness :
    NewFastEntropy (constSource highBit) 0 192 []
      = (Except.ok ⟨192, 0, 2048, beValue ((List.range 24).map highBit)⟩, 1) ∧
    NewFastEntropy failingSource 0 192 [5, 9] = (Except.error Error.randomSource, 1) :=
  ⟨(NewFastEntropy_initial_state (constSource highBit) 0 192 [] (by decide)).1 highBit rfl,
   (NewFastEntropy_initial_state failingSource 0 192 [5, 9] (by decide)).2 rfl⟩

/-- C15: for a generator built by `NewFastEntropy` and a source that never fails, after
any number `k` of calls of `Next` the stored value is at most `2^bitSize` and below
`2^256`, and the next call succeeds and returns 16, 20, 24, 28 or 32 bytes, at most
`bitSize/8` of them. -/
theorem value_and_length_invariant (src : RandSource) (d0 : Nat) (bitSize : Int)
    (mc : List Nat) (f : FastEntropy) (d k : Nat) (hs : ∀ i, src i ≠ none)
    (hf : NewFastEntropy src d0 bitSize mc = (Except.ok f, d)) :
    (stateAfter src k d f).1.entropyInt ≤ 2 ^ Int.toNat bitSize ∧
    (stateAfter src k d f).1.entropyInt < 2 ^ 256 ∧
    ∃ b f1 d1,
      Next src (stateAfter src k d f).2 (stateAfter src k d f).1 = (Except.ok b, f1, d1) ∧
      b.length ∈ [16, 20, 24, 28, 32] ∧ (b.length : Int) ≤ bitSize / 8 := by
  obtain ⟨n, hI, hbs, -⟩ := NewFastEntropy_bounded src d0 bitSize mc f d hf
  have hn : bitSize = 8 * (n : Int) := hbs ▸ hI.2.1
  have hIk := stateAfter_bounded src hs n k d f hI
  obtain ⟨b, f1, d1, hN, -, h4, h16, hle, -⟩ :=
    Next_step_bounded src (stateAfter src k d f).2 (stateAfter src k d f).1 n
      (hs _) hIk
  have hpow : (2 : Nat) ^ Int.toNat bitSize = 256 ^ n := by
    have ht : Int.toNat bitSize = 8 * n := by omega
    rw [ht, pow_mul]
    norm_num
  have h32 : n ≤ 32 := hIk.2.2.2.2.1
  refine ⟨by rw [hpow]; exact hIk.2.2.2.2.2.2.1, hIk.2.2.2.2.2.2.2, b, f1, d1, hN, ?_, by omega⟩
  simp only [List.mem_cons, List.mem_singleton, List.not_mem_nil, or_false]
  omega

theorem value_and_length_invariant_witness :
    (∀ i, constSource lowSeed i ≠ none) ∧
    NewFastEntropy (constSource lowSeed) 0 256 [2]
      = (Except.ok ⟨256, 0, 2, setBytes ((List.range 32).map lowSeed)⟩, 1) ∧
    (stateAfter (constSource lowSeed) 3 1
        ⟨256, 0, 2, setBytes ((List.range 32).map lowSeed)⟩).1.entropyInt < 2 ^ 256 :=
  ⟨fun _ => by simp [constSource], by rfl,
   (value_and_length_invariant (constSource lowSeed) 0 256 [2]
     ⟨256, 0, 2, setBytes ((List.range 32).map lowSeed)⟩ 1 3
     (fun _ => by simp [constSource]) (by rfl)).2.1⟩

/-- C16: in a stretch of consecutive successful calls of `Next` in which no call after the
first reads the source, each returned value is the one before plus one as natural numbers
(no wrap-around), so the values are strictly increasing and the returned byte sequences
are pairwise distinct. -/
theorem run_values_strictly_increase (src : RandSource) (n d : Nat) (f : FastEntropy)
    (hok : ∀ c ∈ runNext src n d f, c.result.isOk = true)
    (hno : ∀ c ∈ (runNext src n d f).tail, c.drew = 0) :
    List.Chain' (fun a b => b = a + 1) ((runNext src n d f).map Call.value) ∧
    List.Pairwise (fun a b => a < b) ((runNext src n d f).map Call.value) ∧
    List.Pairwise (fun c1 c2 => c1.result ≠ c2.result) (runNext src n d f) := by
  have hchain := runNext_chain src n d f hok hno
  have hlt : List.Pairwise (fun a b => a < b) ((runNext src n d f).map Call.value) := by
    have hc : List.Chain' (fun a b : Nat => a < b) ((runNext src n d f).map Call.value) :=
      hchain.imp (fun {a b} (h : b = a + 1) => by omega)
    exact List.chain'_iff_pairwise.1 hc
  refine ⟨hchain, hlt, ?_⟩
  rw [List.pairwise_map] at hlt
  refine hlt.imp ?_
  intro c1 c2 hv heq
  have : c1.value = c2.value := by
    unfold Call.value
    rw [heq]
  omega

theorem run_values_strictly_increase_witness :
    (runNext (constSource highBit) 3 1 ⟨128, 4, 3, 5⟩).map Call.value
      = [2 ^ 127, 2 ^ 127 + 1, 2 ^ 127 + 2] ∧
    List.Pairwise (fun a b => a < b)
      ((runNext (constSource highBit) 3 1 ⟨128, 4, 3, 5⟩).map Call.value) :=
  ⟨by decide,
   (run_values_strictly_increase (constSource highBit) 3 1 ⟨128, 4, 3, 5⟩
     (by decide) (by decide)).2.1⟩

/-- C17: if a successful call of `Next` on a generator (its size is valid) returns the 32
bytes `0xFF...FF`, of value `2^256 - 1`, the stored value afterwards is 0, whose minimal
byte representation is empty, so the following call must reseed whatever the count is: it
reads the source once, and if it succeeds it returns the non-empty fresh bytes of that
read, never the bytes of the wrapped value. -/
theorem all_ones_forces_reseed (src : RandSource) (d : Nat) (f : FastEntropy)
    (b : List Byte) (f1 : FastEntropy) (d1 : Nat)
    (hv : validateEntropyBitSize f.bitSize = none)
    (h : Next src d f = (Except.ok b, f1, d1)) (hb : b = List.replicate 32 (255 : Byte)) :
    beValue b = 2 ^ 256 - 1 ∧ f1.entropyInt = 0 ∧ bytes f1.entropyInt = [] ∧
    mustReseed f1 = true ∧ (Next src d1 f1).2.2 = d1 + 1 ∧
    ∀ b2 f2 d2, Next src d1 f1 = (Except.ok b2, f2, d2) →
      b2 ≠ [] ∧ ∃ g, src d1 = some g ∧
        b2 = (List.range (Int.toNat (Int.tdiv f.bitSize 8))).map g := by
  have hval : beValue b = 2 ^ 256 - 1 := by rw [hb]; exact beValue_all_ones
  obtain ⟨-, hf1⟩ := Next_ok_value src d f b f1 d1 h
  have hzero : f1.entropyInt = 0 := by
    rw [hf1, hval]
    norm_num
  have hbs : f1.bitSize = f.bitSize := by
    have := (Next_preserves src d f).1
    rw [h] at this
    exact this
  have hv1 : validateEntropyBitSize f1.bitSize = none := by rw [hbs]; exact hv
  have hr : mustReseed f1 = true := by
    cases hm : mustReseed f1 with
    | true => rfl
    | false =>
      exact absurd hzero (shapeValid_ne_zero _ ((mustReseed_eq_false_iff_shape f1).1 hm).1)
  refine ⟨hval, hzero, by rw [hzero]; rfl, hr, ?_, ?_⟩
  · cases hs : src d1 with
    | none => rw [Next_reseed_fail src d1 f1 hr hv1 hs]
    | some g => rw [Next_reseed_ok src d1 f1 g hr hv1 hs]
  · intro b2 f2 d2 h2
    rcases Next_ok_cases src d1 f1 b2 f2 d2 h2 with ⟨hk, -, -, -⟩ | ⟨-, -, g, hs, hb2, -, -⟩
    · rw [hr] at hk
      exact Bool.noConfusion hk
    · obtain ⟨n, -, hdiv, h16, -, -⟩ := valid_size_bytes f1.bitSize hv1
      refine ⟨?_, g, hs, by rw [← hbs]; exact hb2⟩
      intro hnil
      have hlen : b2.length = n := by
        rw [hb2, List.length_map, List.length_range, hdiv]
      rw [hnil] at hlen
      simp at hlen
      omega

theorem all_ones_forces_reseed_witness :
    Next (constSource (fun _ => 255)) 0 ⟨256, 7, 7, 5⟩
      = (Except.ok (List.replicate 32 (255 : Byte)), ⟨256, 1, 7, 0⟩, 1) ∧
    mustReseed ⟨256, 1, 7, 0⟩ = true ∧
    (Next (constSource (fun _ => 255)) 1 ⟨256, 1, 7, 0⟩).2.2 = 1 + 1 :=
  have h := all_ones_forces_reseed (constSource (fun _ => 255)) 0 ⟨256, 7, 7, 5⟩
    (List.replicate 32 (255 : Byte)) ⟨256, 1, 7, 0⟩ 1 (by decide) (by rfl) rfl
  ⟨by rfl, h.2.2.2.1, h.2.2.2.2.1⟩

/-- C18: for a generator constructed with threshold 0, every call of `Next` reads the source
exactly once (call number `k` makes read number `d + k`), and every successful call returns
exactly the `bitSize/8` bytes that read wrote, never the bytes of an incremented value. -/
theorem threshold_zero_always_draws (src : RandSource) (d0 : Nat) (bitSize : Int)
    (more : List Nat) (f : FastEntropy) (d k : Nat)
    (hf : NewFastEntropy src d0 bitSize (0 :: more) = (Except.ok f, d)) :
    (stateAfter src k d f).2 = d + k ∧
    (Next src (d + k) (stateAfter src k d f).1).2.2 = d + k + 1 ∧
    ∀ b, (Next src (d + k) (stateAfter src k d f).1).1 = Except.ok b →
      ∃ g, src (d + k) = some g ∧
        b = (List.range (Int.toNat (Int.tdiv bitSize 8))).map g := by
  obtain ⟨hv, -, g0, -, hfdef⟩ := NewFastEntropy_ok_cases src d0 bitSize (0 :: more) f d hf
  have hmax : f.maxCumulative = 0 := by rw [hfdef]; rfl
  have hbs : f.bitSize = bitSize := by rw [hfdef]
  obtain ⟨hm, hb, hd⟩ := stateAfter_threshold_zero src k d f hmax (by rw [hbs]; exact hv)
  have hr : mustReseed (stateAfter src k d f).1 = true :=
    mustReseed_of_count _ (by omega)
  have hvk : validateEntropyBitSize (stateAfter src k d f).1.bitSize = none := by
    rw [hb, hbs]
    exact hv
  refine ⟨hd, ?_, ?_⟩
  · cases hs : src (d + k) with
    | none => rw [Next_reseed_fail src (d + k) _ hr hvk hs]
    | some g => rw [Next_reseed_ok src (d + k) _ g hr hvk hs]
  · intro b hres
    cases hs : src (d + k) with
    | none =>
      rw [Next_reseed_fail src (d + k) _ hr hvk hs] at hres
      simp at hres
    | some g =>
      rw [Next_reseed_ok src (d + k) _ g hr hvk hs] at hres
      simp only [Except.ok.injEq] at hres
      refine ⟨g, rfl, ?_⟩
      rw [← hres, hb, hbs]

theorem threshold_zero_always_draws_witness :
    NewFastEntropy (constSource highBit) 0 128 [0] = (Except.ok ⟨128, 0, 0, 2 ^ 127⟩, 1) ∧
    (stateAfter (constSource highBit) 2 1 ⟨128, 0, 0, 2 ^ 127⟩).2 = 1 + 2 ∧
    (Next (constSource highBit) (1 + 2)
      (stateAfter (constSource highBit) 2 1 ⟨128, 0, 0, 2 ^ 127⟩).1).2.2 = 1 + 2 + 1 :=
  have h := threshold_zero_always_draws (constSource highBit) 0 128 [] ⟨128, 0, 0, 2 ^ 127⟩
    1 2 (by rfl)
  ⟨by rfl, h.1, h.2.1⟩

end Bip39
